import Mathlib

/-!
# Verification of `StorageBucket` (wavebox app storage layer)

Shallow embedding of `src/app/storage/StorageBucket.js`:

* a model of JavaScript values (`JsVal`) as they arise from `JSON.parse`,
  together with JS truthiness and string coercion (`'' + v`);
* the snapshot codec: a model of `JSON.stringify` (`stringifyJson`, and its
  restriction `encodeStrMap` to the string-valued maps the store maintains)
  and of `JSON.parse` (`decodeJson`);
* the pure store operations `getItem`, `getJSONItem`, `allKeys`,
  `getKeyLengths`, `getStats`, `_setItem`/`_removeItem` (named `setItem` /
  `removeItem` here) and `_loadFromDiskSync` (`loadFromDiskSync`);
* the legacy migration `_migrateFrom3v1v3` (`migrateFrom3v1v3`);
* a discrete-event model of `_writeToDisk`: the debounce timer
  (`clearTimeout` + `setTimeout`), the `__writeLock__` flag and the
  asynchronous `writeFileAtomic` completion callback.
-/

namespace StorageBucket

/-- A JavaScript value as produced by `JSON.parse` (plus `undefined`, which is
what a missing-property access returns).  Numbers are kept as their source
lexeme: no claim in scope depends on numeric magnitude, only on a value being
a number rather than a string, and on zero-ness for truthiness. -/
inductive JsVal where
  | vundef : JsVal
  | vnull : JsVal
  | vbool (b : Bool) : JsVal
  | vnum (lexeme : String) : JsVal
  | vstr (s : String) : JsVal
  | varr (elems : List JsVal) : JsVal
  | vobj (entries : List (String × JsVal)) : JsVal
deriving Repr

/-- Whether a JSON number lexeme denotes zero: every digit of the mantissa
(the part before any exponent marker) is `0`. -/
def numIsZero (l : String) : Bool :=
  let mantissa := (l.data.filter (fun c => c ≠ '-')).takeWhile
    (fun c => c ≠ 'e' ∧ c ≠ 'E')
  mantissa.all (fun c => c = '0' ∨ c = '.')

/-- JavaScript truthiness of a value (`if (v)`, `v || d`). -/
def truthy : JsVal → Bool
  | .vundef => false
  | .vnull => false
  | .vbool b => b
  | .vnum l => !(numIsZero l)
  | .vstr s => !(s == "")
  | .varr _ => true
  | .vobj _ => true

/-- How `Array.prototype.join` renders one element: `null` and `undefined`
become empty, everything else its string coercion. -/
def jsElemHeadStr : JsVal → Option String
  | .vundef => some ""
  | .vnull => some ""
  | .vbool true => some "true"
  | .vbool false => some "false"
  | .vnum l => some l
  | .vstr s => some s
  | .vobj _ => some "[object Object]"
  | .varr _ => none

/-- String coercion `'' + v` of a JavaScript value
(`Array.prototype.toString` joins element coercions with `,`). -/
def jsToString (v : JsVal) : String :=
  match v with
  | .vundef => "undefined"
  | .vnull => "null"
  | .vbool true => "true"
  | .vbool false => "false"
  | .vnum l => l
  | .vstr s => s
  | .vobj _ => "[object Object]"
  | .varr elems =>
      String.intercalate "," (elems.attach.map (fun e =>
        match jsElemHeadStr e.1 with
        | some s => s
        | none => jsToString e.1))
termination_by sizeOf v
decreasing_by
  have h1 := List.sizeOf_lt_of_mem e.2
  simp only [JsVal.varr.sizeOf_spec]
  omega

/-! ## Snapshot codec, encoding side

`_writeToDisk` serializes with `JSON.stringify(this.__data__)`.  We model the
encoder at the character level so that the parser/printer round trip can be
proved by list induction. -/

/-- The hex digit character for `n < 16` (lowercase, as `JSON.stringify`
emits in `\u00xx` escapes). -/
def hexDigitChar (n : Nat) : Char :=
  if n < 10 then Char.ofNat ('0'.toNat + n) else Char.ofNat ('a'.toNat + n - 10)

/-- How `JSON.stringify` escapes one character of a string: `"` and `\`
get a backslash escape, the five named control characters their short forms,
the remaining control characters a `\u00xx` escape, and everything else is
emitted literally. -/
def escapeChar (c : Char) : List Char :=
  if c = '"' then ['\\', '"']
  else if c = '\\' then ['\\', '\\']
  else if c = '\x08' then ['\\', 'b']
  else if c = '\x0c' then ['\\', 'f']
  else if c = '\n' then ['\\', 'n']
  else if c = '\r' then ['\\', 'r']
  else if c = '\t' then ['\\', 't']
  else if c.toNat < 0x20 then
    ['\\', 'u', '0', '0', hexDigitChar (c.toNat / 16), hexDigitChar (c.toNat % 16)]
  else [c]

/-- `JSON.stringify` of a string: quoted, with each character escaped. -/
def encodeStrChars (s : String) : List Char :=
  '"' :: (s.data.flatMap escapeChar ++ ['"'])

/-- One `"key":"value"` member of a stringified object. -/
def encodePairChars (kv : String × String) : List Char :=
  encodeStrChars kv.1 ++ ':' :: encodeStrChars kv.2

/-- The members of a stringified object, comma-separated and closed with
`}` (the opening `{` is emitted by `encodeStrMapChars`). -/
def encodeMembersChars : List (String × String) → List Char
  | [] => ['}']
  | [kv] => encodePairChars kv ++ ['}']
  | kv :: rest => encodePairChars kv ++ ',' :: encodeMembersChars rest

/-- `JSON.stringify` of an all-string-valued object — the snapshot shape that
`_setItem` maintains and `_writeToDisk` flushes. -/
def encodeStrMapChars (m : List (String × String)) : List Char :=
  '{' :: encodeMembersChars m

/-- `JSON.stringify` of an all-string-valued object, as a string. -/
def encodeStrMap (m : List (String × String)) : String :=
  ⟨encodeStrMapChars m⟩

/-! ## Snapshot codec, parsing side

A model of `JSON.parse` (no reviver), used by `_loadFromDiskSync` and
`getJSONItem`.  Recursion into nested values is by fuel; `decodeJson` passes
the input length plus one, which is ample since every recursive step first
consumes at least one character.

Known modelling edge: a `\uXXXX` escape denoting a UTF-16 surrogate half is
mapped through `Char.ofNat` (yielding `'\0'`) because Lean strings hold
Unicode scalar values; the encoder never emits such escapes and no claim
exercises them. -/

/-- JSON insignificant whitespace. -/
def isJsonWs (c : Char) : Bool :=
  c = ' ' || c = '\t' || c = '\n' || c = '\r'

/-- Drop leading JSON whitespace. -/
def skipWs : List Char → List Char
  | [] => []
  | c :: cs => if isJsonWs c then skipWs cs else c :: cs

/-- The value of a hex digit character, or `none`. -/
def hexVal (c : Char) : Option Nat :=
  if '0' ≤ c ∧ c ≤ '9' then some (c.toNat - '0'.toNat)
  else if 'a' ≤ c ∧ c ≤ 'f' then some (c.toNat - 'a'.toNat + 10)
  else if 'A' ≤ c ∧ c ≤ 'F' then some (c.toNat - 'A'.toNat + 10)
  else none

/-- Parse the body of a JSON string (after the opening quote), returning the
decoded characters and the input after the closing quote.  Raw control
characters are rejected, escape sequences are decoded.  The fuel only bounds
the recursion depth (one unit per consumed character or escape); callers
pass the input length plus one, which can never run out. -/
def parseStringBody : Nat → List Char → Option (List Char × List Char)
  | 0, _ => none
  | _ + 1, [] => none
  | fuel + 1, c :: rest =>
    if c = '"' then some ([], rest)
    else if c = '\\' then
      match rest with
      | [] => none
      | e :: r2 =>
        if e = '"' then (parseStringBody fuel r2).map (fun p => ('"' :: p.1, p.2))
        else if e = '\\' then (parseStringBody fuel r2).map (fun p => ('\\' :: p.1, p.2))
        else if e = '/' then (parseStringBody fuel r2).map (fun p => ('/' :: p.1, p.2))
        else if e = 'b' then (parseStringBody fuel r2).map (fun p => ('\x08' :: p.1, p.2))
        else if e = 'f' then (parseStringBody fuel r2).map (fun p => ('\x0c' :: p.1, p.2))
        else if e = 'n' then (parseStringBody fuel r2).map (fun p => ('\n' :: p.1, p.2))
        else if e = 'r' then (parseStringBody fuel r2).map (fun p => ('\r' :: p.1, p.2))
        else if e = 't' then (parseStringBody fuel r2).map (fun p => ('\t' :: p.1, p.2))
        else if e = 'u' then
          match r2 with
          | h1 :: h2 :: h3 :: h4 :: r3 =>
            match hexVal h1, hexVal h2, hexVal h3, hexVal h4 with
            | some a, some b, some c2, some d =>
              (parseStringBody fuel r3).map (fun p =>
                (Char.ofNat (((a * 16 + b) * 16 + c2) * 16 + d) :: p.1, p.2))
            | _, _, _, _ => none
          | _ => none
        else none
    else if c.toNat < 0x20 then none
    else (parseStringBody fuel rest).map (fun p => (c :: p.1, p.2))

/-- Split off a maximal run of decimal digits. -/
def spanDigits (cs : List Char) : List Char × List Char :=
  match cs with
  | [] => ([], [])
  | c :: rest =>
    if c.isDigit then
      let p := spanDigits rest
      (c :: p.1, p.2)
    else ([], cs)

/-- Parse the optional exponent of a JSON number, given the lexeme so far;
returns the full lexeme and the rest of the input. -/
def parseExpPart (lexeme : List Char) (cs : List Char) : Option (List Char × List Char) :=
  match cs with
  | 'e' :: r | 'E' :: r =>
    let (sgn, r1) :=
      match r with
      | '+' :: r2 => (['+'], r2)
      | '-' :: r2 => (['-'], r2)
      | _ => ([], r)
    let p := spanDigits r1
    if p.1 = [] then none
    else some (lexeme ++ cs.take 1 ++ sgn ++ p.1, p.2)
  | _ => some (lexeme, cs)

/-- Parse the optional fraction and exponent of a JSON number, given the
lexeme so far; returns the full lexeme and the rest of the input. -/
def parseNumberTail (intPart : List Char) (cs : List Char) : Option (List Char × List Char) :=
  match cs with
  | '.' :: r =>
    let p := spanDigits r
    if p.1 = [] then none
    else parseExpPart (intPart ++ '.' :: p.1) p.2
  | _ => parseExpPart intPart cs

/-- Parse a JSON number lexeme: optional minus, an integer part with no
leading zero, then optional fraction and exponent. -/
def parseNumber (cs : List Char) : Option (List Char × List Char) :=
  let (sign, cs1) :=
    match cs with
    | '-' :: r => (['-'], r)
    | _ => ([], cs)
  match cs1 with
  | '0' :: r => parseNumberTail (sign ++ ['0']) r
  | c :: r =>
    if c.isDigit then
      let p := spanDigits r
      parseNumberTail (sign ++ c :: p.1) p.2
    else none
  | [] => none

/-- Insert a key into a property list with JavaScript object semantics: an
existing key keeps its position and gets the new value (`JSON.parse` is
last-wins on duplicate keys, assignment overwrites in place), a fresh key is
appended. -/
def objInsert {α : Type} (es : List (String × α)) (k : String) (v : α) :
    List (String × α) :=
  match es with
  | [] => [(k, v)]
  | (k1, v1) :: t => if k1 = k then (k1, v) :: t else (k1, v1) :: objInsert t k v

mutual

/-- Parse one JSON value.  `cs` starts at a non-whitespace character. -/
def parseValue : Nat → List Char → Option (JsVal × List Char)
  | 0, _ => none
  | fuel + 1, cs =>
    match cs with
    | [] => none
    | c :: rest =>
      if c = '"' then
        (parseStringBody (rest.length + 1) rest).map (fun p => (.vstr ⟨p.1⟩, p.2))
      else if c = '{' then
        match skipWs rest with
        | '}' :: r => some (.vobj [], r)
        | cs1 => (parseMembers fuel cs1 []).map (fun p => (.vobj p.1, p.2))
      else if c = '[' then
        match skipWs rest with
        | ']' :: r => some (.varr [], r)
        | cs1 => (parseElems fuel cs1 []).map (fun p => (.varr p.1, p.2))
      else if c = 't' then
        match rest with
        | 'r' :: 'u' :: 'e' :: r => some (.vbool true, r)
        | _ => none
      else if c = 'f' then
        match rest with
        | 'a' :: 'l' :: 's' :: 'e' :: r => some (.vbool false, r)
        | _ => none
      else if c = 'n' then
        match rest with
        | 'u' :: 'l' :: 'l' :: r => some (.vnull, r)
        | _ => none
      else if c = '-' ∨ c.isDigit then
        (parseNumber cs).map (fun p => (.vnum ⟨p.1⟩, p.2))
      else none

/-- Parse the members of a JSON object (after `{` and leading whitespace,
knowing the object is not empty), accumulating with `objInsert`. -/
def parseMembers : Nat → List Char → List (String × JsVal) →
    Option (List (String × JsVal) × List Char)
  | 0, _, _ => none
  | fuel + 1, cs, acc =>
    match cs with
    | '"' :: rest =>
      match parseStringBody (rest.length + 1) rest with
      | none => none
      | some (kcs, r1) =>
        match skipWs r1 with
        | ':' :: r2 =>
          match parseValue fuel (skipWs r2) with
          | none => none
          | some (v, r3) =>
            let acc1 := objInsert acc ⟨kcs⟩ v
            match skipWs r3 with
            | ',' :: r4 => parseMembers fuel (skipWs r4) acc1
            | '}' :: r4 => some (acc1, r4)
            | _ => none
        | _ => none
    | _ => none

/-- Parse the elements of a JSON array (after `[` and leading whitespace,
knowing the array is not empty). -/
def parseElems : Nat → List Char → List JsVal →
    Option (List JsVal × List Char)
  | 0, _, _ => none
  | fuel + 1, cs, acc =>
    match parseValue fuel cs with
    | none => none
    | some (v, r1) =>
      match skipWs r1 with
      | ',' :: r2 => parseElems fuel (skipWs r2) (acc ++ [v])
      | ']' :: r2 => some (acc ++ [v], r2)
      | _ => none

end

/-- `JSON.parse`: whitespace, one value, trailing whitespace, nothing else;
`none` models a thrown `SyntaxError`. -/
def decodeJson (s : String) : Option JsVal :=
  match parseValue (s.length + 1) (skipWs s.data) with
  | some (v, rest) => if skipWs rest = [] then some v else none
  | none => none

/-- Join already-stringified object members with commas and close the
object (the opening brace is emitted by the caller), mirroring
`encodeMembersChars`. -/
def joinMembersChars : List (List Char) → List Char
  | [] => ['}']
  | [x] => x ++ ['}']
  | x :: rest => x ++ ',' :: joinMembersChars rest

/-- Join already-stringified array elements with commas and close the
array (the opening bracket is emitted by the caller). -/
def joinElemsChars : List (List Char) → List Char
  | [] => [']']
  | [x] => x ++ [']']
  | x :: rest => x ++ ',' :: joinElemsChars rest

/-- Full `JSON.stringify` of a value: `undefined` stringifies to nothing
(`none`), object members whose value stringifies to nothing are omitted,
array elements that stringify to nothing render as `null`. -/
def stringifyJson : JsVal → Option String
  | .vundef => none
  | .vnull => some "null"
  | .vbool true => some "true"
  | .vbool false => some "false"
  | .vnum l => some l
  | .vstr s => some ⟨encodeStrChars s⟩
  | .varr es =>
      some ⟨'[' :: joinElemsChars (es.attach.map (fun e =>
        ((stringifyJson e.1).getD "null").data))⟩
  | .vobj es =>
      some ⟨'{' :: joinMembersChars (es.attach.filterMap (fun kv =>
        (stringifyJson kv.1.2).map (fun vs =>
          encodeStrChars kv.1.1 ++ ':' :: vs.data)))⟩
termination_by v => sizeOf v
decreasing_by
  · have h1 := List.sizeOf_lt_of_mem e.2
    simp only [JsVal.varr.sizeOf_spec]
    omega
  · have h1 := List.sizeOf_lt_of_mem kv.2
    have h2 : sizeOf kv.1.2 < sizeOf kv.1 := by
      obtain ⟨a, b⟩ := kv.1
      simp only [Prod.mk.sizeOf_spec]
      omega
    simp only [JsVal.vobj.sizeOf_spec]
    omega

/-! ## Store state and operations -/

/-- Look a key up in a property list; a missing property reads as
`undefined`. -/
def lookupVal (es : List (String × JsVal)) (k : String) : JsVal :=
  match es with
  | [] => .vundef
  | (k1, v) :: t => if k1 = k then v else lookupVal t k

/-- Remove a key from a property list (`delete obj[k]`). -/
def eraseKey (es : List (String × JsVal)) (k : String) : List (String × JsVal) :=
  match es with
  | [] => []
  | (k1, v) :: t => if k1 = k then t else (k1, v) :: eraseKey t k

/-- Property read `d[k]`.  `none` models the `TypeError` thrown when reading
a property of `null`/`undefined`.  Arrays answer canonical index strings,
strings likewise (single-character values); other primitive properties read
as `undefined`. -/
def jsIndex : JsVal → String → Option JsVal
  | .vobj es, k => some (lookupVal es k)
  | .varr es, k =>
      some (match (List.range es.length).find? (fun i => toString i = k) with
            | some i => es.getD i .vundef
            | none => .vundef)
  | .vstr s, k =>
      some (match (List.range s.length).find? (fun i => toString i = k) with
            | some i => .vstr ⟨[s.data.getD i ' ']⟩
            | none => .vundef)
  | .vnum _, _ => some .vundef
  | .vbool _, _ => some .vundef
  | .vnull, _ => none
  | .vundef, _ => none

/-- `getItem (k, d)`: `const json = this.__data__[k]; return json || d`. -/
def getItem (d : JsVal) (k : String) (df : JsVal) : Option JsVal :=
  (jsIndex d k).map (fun json => if truthy json then json else df)

/-- `getJSONItem (k, d)`: `item ? JSON.parse(item) : d` inside a `try`,
with `catch` returning `{}`.  (`JSON.parse` coerces a non-string argument to
its string form first.) -/
def getJSONItem (d : JsVal) (k : String) (df : JsVal) : Option JsVal :=
  (getItem d k .vundef).map (fun item =>
    if truthy item then (decodeJson (jsToString item)).getD (.vobj []) else df)

/-- `allKeys ()`: `Object.keys(this.__data__)`.  `none` models the
`TypeError` on `null`/`undefined`; primitives box to key-less objects,
arrays and strings expose their indices. -/
def allKeys : JsVal → Option (List String)
  | .vobj es => some (es.map (fun kv => kv.1))
  | .varr es => some ((List.range es.length).map (fun i => toString i))
  | .vstr s => some ((List.range s.length).map (fun i => toString i))
  | .vnum _ => some []
  | .vbool _ => some []
  | .vnull => none
  | .vundef => none

/-- The `.length` property of a value; `none` is `undefined`. -/
def jsLength : JsVal → Option Nat
  | .vstr s => some s.length
  | .varr es => some es.length
  | _ => none

/-- `getKeyLengths ()` on an object-valued store: for each key, when
`getItem (key)` is truthy, record `item.length` under that key
(`acc[key] = item.length`). -/
def getKeyLengths (es : List (String × JsVal)) : List (String × Option Nat) :=
  es.foldl (fun acc kv =>
    if truthy kv.2 then objInsert acc kv.1 (jsLength kv.2) else acc) []

/-- The record returned by `getStats ()`; `filesize` comes from
`fs.statSync` and is a parameter of the model. -/
structure BucketStats where
  filesize : Nat
  keyLengths : List (String × Option Nat)
  dataSize : Nat
deriving Repr

/-- `getStats ()` on an object-valued store. -/
def getStats (filesize : Nat) (es : List (String × JsVal)) : BucketStats :=
  { filesize := filesize
    keyLengths := getKeyLengths es
    dataSize := ((stringifyJson (.vobj es)).getD "").length }

/-- Property assignment `d[k] = v`.  On a non-object it is silently ignored
(non-strict mode); assignment to array index properties is not modelled
(no claim reaches a state where `__data__` is an array). -/
def jsAssign (d : JsVal) (k : String) (v : JsVal) : JsVal :=
  match d with
  | .vobj es => .vobj (objInsert es k v)
  | other => other

/-- `_setItem (k, v)`: `this.__data__[k] = '' + v; ...; return v`.  Returns
the new store data and the returned value.  (Event emission and the
`_writeToDisk` call are modelled separately: the debounce layer below.) -/
def setItem (d : JsVal) (k : String) (v : JsVal) : JsVal × JsVal :=
  (jsAssign d k (.vstr (jsToString v)), v)

/-- `_removeItem (k)`: `delete this.__data__[k]`. -/
def removeItem (d : JsVal) (k : String) : JsVal :=
  match d with
  | .vobj es => .vobj (eraseKey es k)
  | other => other

/-- One mutation of the store map. -/
inductive MutOp where
  | set (k : String) (v : JsVal) : MutOp
  | rem (k : String) : MutOp

/-- Apply a sequence of `_setItem`/`_removeItem` mutations. -/
def applyOps (d : JsVal) (ops : List MutOp) : JsVal :=
  ops.foldl (fun acc op =>
    match op with
    | .set k v => (setItem acc k v).1
    | .rem k => removeItem acc k) d

/-- Whether the store data is an object all of whose values are strings. -/
def objValuesStrings : JsVal → Bool
  | .vobj es => es.all (fun kv => match kv.2 with | .vstr _ => true | _ => false)
  | _ => false

/-! ## Construction: load and migration -/

/-- `fs.readFileSync`, the disk content being `none` when the file is
absent (the read then throws). -/
def readFile (content : Option String) : Except Unit String :=
  match content with
  | some s => .ok s
  | none => .error ()

/-- `JSON.parse` as a throwing operation. -/
def parseOrThrow (s : String) : Except Unit JsVal :=
  match decodeJson s with
  | some v => .ok v
  | none => .error ()

/-- `_loadFromDiskSync ()`: read the file with `'{}'` as the fallback for a
failed read, then parse, with `{}` as the fallback for a failed parse.
Total: construction never propagates an exception from loading. -/
def loadFromDiskSync (content : Option String) : JsVal :=
  let data := (readFile content).toOption.getD "{}"
  (parseOrThrow data).toOption.getD (.vobj [])

/-- Inputs of `_migrateFrom3v1v3`: the platform string, whether the current
bucket path and the 3.1.3-era path exist, and whether `fs.moveSync` would
fail. -/
structure MigEnv where
  platform : String
  targetExists : Bool
  oldExists : Bool
  moveFails : Bool

/-- The body of `_migrateFrom3v1v3` before its `catch`: returns whether the
old file was moved into place, or the exception `fs.moveSync` threw.  The
probe of the old location only happens on `win32`, and only when the
current path does not exist. -/
def migrateBody (e : MigEnv) : Except Unit Bool :=
  if e.platform ≠ "win32" then .ok false
  else if e.targetExists = false then
    if e.oldExists then
      if e.moveFails then .error () else .ok true
    else .ok false
  else .ok false

/-- `_migrateFrom3v1v3`: the body with its exceptions caught and logged
(`console.warn`), so construction always continues; returns whether the old
file was moved. -/
def migrateFrom3v1v3 (e : MigEnv) : Bool :=
  (migrateBody e).toOption.getD false

/-! ## The debounce / flush layer (`_writeToDisk`)

A discrete-event model of the single-threaded timer semantics:

* `pending` is `__writeHold__`: the deadline of the armed `setTimeout`, if
  any (`clearTimeout` + `setTimeout` replaces it);
* `lock` is `__writeLock__`, and `busyUntil` the completion time of the
  in-flight `writeFileAtomic` whose callback clears the lock;
* `muts` are the times of the externally issued mutations (each runs
  `_writeToDisk`, i.e. re-arms the timer), in ascending order;
* `durs` supplies the (arbitrary) durations of successive physical writes;
* `writes` records each started physical write as `(start, completion)`.

At each step the earliest enabled event executes; on ties an I/O completion
runs before a timer callback, which runs before an external mutation. -/

/-- State of the debounce simulation. -/
structure SimState where
  now : Nat
  pending : Option Nat
  lock : Bool
  busyUntil : Nat
  muts : List Nat
  durs : List Nat
  writes : List (Nat × Nat)
deriving Repr

/-- The events the simulation can execute. -/
inductive SimEvent where
  | complete : SimEvent
  | fire : SimEvent
  | mutate : SimEvent
deriving Repr, DecidableEq

/-- Combine two optional candidate events, keeping the earlier one and
preferring the left one on equal times. -/
def minCand (a b : Option (SimEvent × Nat)) : Option (SimEvent × Nat) :=
  match a, b with
  | none, b => b
  | some x, none => some x
  | some x, some y => if y.2 < x.2 then some y else some x

/-- The next event and its time: the earliest of the pending-write
completion, the armed timer deadline and the next mutation, preferring
completion over fire over mutate on equal times. -/
def nextEvent (s : SimState) : Option (SimEvent × Nat) :=
  minCand (minCand
    (if s.lock then some (.complete, s.busyUntil) else none)
    (match s.pending with | some d => some (.fire, d) | none => none))
    (match s.muts with | m :: _ => some (.mutate, m) | [] => none)

/-- Execute one event of the `_writeToDisk` machinery.

* A mutation calls `_writeToDisk`: `clearTimeout(this.__writeHold__)`
  followed by `setTimeout(..., DB_WRITE_DELAY_MS)` — the armed deadline is
  replaced by `now + delay`.
* When the timer fires with `__writeLock__` held, the callback calls
  `_writeToDisk()` again: the flush is requeued for `delay` later.
* When it fires unlocked, `__writeLock__` is set and `writeFileAtomic`
  starts; its callback clears the lock when the write completes. -/
def step (delay : Nat) (s : SimState) : SimState :=
  match nextEvent s with
  | none => s
  | some (.complete, t) => { s with now := t, lock := false }
  | some (.fire, t) =>
    if s.lock then
      { s with now := t, pending := some (t + delay) }
    else
      let dur := s.durs.headD 0
      { s with
          now := t
          pending := none
          lock := true
          busyUntil := t + dur
          durs := s.durs.tail
          writes := s.writes ++ [(t, t + dur)] }
  | some (.mutate, t) =>
    { s with now := t, muts := s.muts.tail, pending := some (t + delay) }

/-- Run the simulation for at most `fuel` events (it is stationary once no
event is enabled). -/
def sim (delay : Nat) : Nat → SimState → SimState
  | 0, s => s
  | fuel + 1, s =>
    match nextEvent s with
    | none => s
    | some _ => sim delay fuel (step delay s)

/-- The initial state for a run that starts idle (no timer armed, no write
in flight) with mutations at the given times. -/
def initState (muts : List Nat) (durs : List Nat) : SimState :=
  { now := 0, pending := none, lock := false, busyUntil := 0
    muts := muts, durs := durs, writes := [] }

/-- A concrete locked state used to exercise the no-concurrent-flush
behaviour: a write is in flight until time 12, the timer is armed for time
5, no mutations remain and one write is already on record. -/
def c2DemoState : SimState :=
  { now := 0, pending := some 5, lock := true, busyUntil := 12, muts := [],
    durs := [7], writes := [(2, 12)] }

/-- Physical writes never overlap: each completes no later than the next
one starts. -/
def WritesDisjoint (ws : List (Nat × Nat)) : Prop :=
  ws.Chain' (fun a b => a.2 ≤ b.1)

/-- The inductive sanity invariant of simulation states: recorded writes
are ordered and non-overlapping, finish by `busyUntil` while a write is in
flight and by `now` otherwise, the armed deadline and the mutation times
are not in the past, and mutation times are ascending. -/
def Inv (s : SimState) : Prop :=
  s.writes.Chain' (fun a b => a.2 ≤ b.1) ∧
  (∀ w ∈ s.writes, w.1 ≤ w.2 ∧ w.2 ≤ (if s.lock then s.busyUntil else s.now)) ∧
  (∀ d, s.pending = some d → s.now ≤ d) ∧
  (∀ m ∈ s.muts, s.now ≤ m) ∧
  s.muts.Chain' (fun a b => a ≤ b)

/-! ## Helper lemmas on property lists -/

theorem lookupVal_objInsert_self (es : List (String × JsVal)) (k : String) (v : JsVal) :
    lookupVal (objInsert es k v) k = v := by
  induction es with
  | nil => simp [objInsert, lookupVal]
  | cons hd t ih =>
    obtain ⟨k1, v1⟩ := hd
    by_cases h : k1 = k <;> simp [objInsert, lookupVal, h, ih]

theorem lookupVal_objInsert_ne (es : List (String × JsVal)) (k k1 : String) (v : JsVal)
    (h : k1 ≠ k) : lookupVal (objInsert es k v) k1 = lookupVal es k1 := by
  induction es with
  | nil => simp [objInsert, lookupVal, Ne.symm h]
  | cons hd t ih =>
    obtain ⟨k2, v2⟩ := hd
    by_cases h2 : k2 = k
    · subst h2
      simp [objInsert, lookupVal, Ne.symm h]
    · by_cases h3 : k2 = k1 <;> simp [objInsert, lookupVal, h2, h3, h, ih]

theorem objInsert_all {α : Type} (P : String × α → Bool) (es : List (String × α))
    (k : String) (v : α) (hes : es.all P = true) (hv : P (k, v) = true) :
    (objInsert es k v).all P = true := by
  induction es with
  | nil => simp only [objInsert, List.all_cons, List.all_nil, Bool.and_true, hv]
  | cons hd t ih =>
    obtain ⟨k1, v1⟩ := hd
    simp only [List.all_cons, Bool.and_eq_true] at hes
    by_cases h : k1 = k
    · subst h
      have hins : objInsert ((k1, v1) :: t) k1 v = (k1, v) :: t := by
        simp [objInsert]
      rw [hins, List.all_cons]
      simp [hv, hes.2]
    · have hins : objInsert ((k1, v1) :: t) k v = (k1, v1) :: objInsert t k v := by
        simp [objInsert, h]
      rw [hins, List.all_cons]
      simp [hes.1, ih hes.2]

theorem eraseKey_all (P : String × JsVal → Bool) (es : List (String × JsVal))
    (k : String) (hes : es.all P) : (eraseKey es k).all P := by
  induction es with
  | nil => simp [eraseKey]
  | cons hd t ih =>
    obtain ⟨k1, v1⟩ := hd
    simp only [List.all_cons, Bool.and_eq_true] at hes
    by_cases h : k1 = k <;> simp [eraseKey, h, hes.1, hes.2, ih hes.2]

/-! ## Claim theorems: simple store operations -/

/-- C7.  Get/default semantics: `getItem` returns the stored value when it
is present and truthy, the supplied default when the key is absent
(`undefined`) or its value is falsy; it never throws on an object-valued
store (the result is always `some _`, never the `TypeError` case); in
particular `get("missing","d") = "d"` and after `set(k, s)` with `s`
non-empty, `get(k) = s`. -/
theorem c7_get_default_semantics :
    (∀ es k df, getItem (.vobj es) k df =
      some (if truthy (lookupVal es k) then lookupVal es k else df)) ∧
    (∀ es k df, lookupVal es k = .vundef → getItem (.vobj es) k df = some df) ∧
    (getItem (.vobj []) "missing" (.vstr "d") = some (.vstr "d")) ∧
    (∀ es k (s : String), s ≠ "" →
      getItem (setItem (.vobj es) k (.vstr s)).1 k .vundef = some (.vstr s)) := by
  refine ⟨?_, ?_, rfl, ?_⟩
  · intro es k df
    rfl
  · intro es k df h
    simp [getItem, jsIndex, h, truthy]
  · intro es k s hs
    have hcoe : jsToString (.vstr s) = s := by simp [jsToString]
    simp [setItem, jsAssign, getItem, jsIndex, hcoe, lookupVal_objInsert_self, truthy, hs]

/-- C7 witness. -/
theorem c7_get_default_semantics_witness :
    getItem (setItem (.vobj []) "k" (.vstr "v")).1 "k" .vundef = some (.vstr "v") :=
  c7_get_default_semantics.2.2.2 [] "k" "v" (by decide)

/-- C6 counterexample.  `_setItem` stores the coerced string `'5'` but
returns the original (non-string) argument unchanged: the returned value is
not the stored string form. -/
theorem c6_counterexample :
    (setItem (.vobj []) "a" (.vnum "5")).2 = .vnum "5" ∧
    (setItem (.vobj []) "a" (.vnum "5")).1 = .vobj [("a", .vstr "5")] ∧
    (setItem (.vobj []) "a" (.vnum "5")).2 ≠ .vstr "5" := by
  refine ⟨rfl, ?_, by simp [setItem]⟩
  simp [setItem, jsAssign, objInsert, jsToString]

/-- C6 (amended).  `set(k, v)` coerces `v` to its string form and stores
that string in the map, but returns the original argument `v` unchanged;
the returned value equals the stored string exactly when `v` is already a
string. -/
theorem c6_set_semantics : ∀ (es : List (String × JsVal)) (k : String) (v : JsVal),
    (setItem (.vobj es) k v).2 = v ∧
    (setItem (.vobj es) k v).1 = .vobj (objInsert es k (.vstr (jsToString v))) ∧
    lookupVal (objInsert es k (.vstr (jsToString v))) k = .vstr (jsToString v) ∧
    (∀ s, v = .vstr s → (setItem (.vobj es) k v).2 = .vstr (jsToString v)) := by
  intro es k v
  refine ⟨rfl, rfl, lookupVal_objInsert_self es k _, ?_⟩
  intro s hs
  subst hs
  simp [setItem, jsToString]

/-- C6 witness. -/
theorem c6_set_semantics_witness :
    (setItem (.vobj []) "k" (.vstr "v")).2 = .vstr (jsToString (.vstr "v")) :=
  (c6_set_semantics [] "k" (.vstr "v")).2.2.2 "v" rfl

/-! ## Claim theorems: legacy migration -/

/-- C9 counterexample.  On a non-`win32` platform the constructor does not
probe the previous-version location at all: with the target absent and the
old file present, no move happens (`_migrateFrom3v1v3` returns before the
existence checks when `process.platform !== 'win32'`). -/
theorem c9_counterexample :
    migrateFrom3v1v3
      { platform := "linux", targetExists := false, oldExists := true,
        moveFails := false } = false := rfl

/-- C9 (amended).  Only on `win32`: when the target bucket path is absent,
the constructor probes the previous-version storage location and moves a
same-named file into place; on every other platform the probe is skipped
entirely; a failure of the move is caught (logged only), so the migration
step always returns normally and never aborts construction. -/
theorem c9_legacy_migration : ∀ e : MigEnv,
    (e.platform = "win32" → e.targetExists = false → e.oldExists = true →
      e.moveFails = false → migrateFrom3v1v3 e = true) ∧
    (e.platform ≠ "win32" → migrateFrom3v1v3 e = false) ∧
    (migrateBody e = .error () → migrateFrom3v1v3 e = false) := by
  intro e
  refine ⟨?_, ?_, ?_⟩
  · intro h1 h2 h3 h4
    simp [migrateFrom3v1v3, migrateBody, h1, h2, h3, h4, Except.toOption]
  · intro h1
    simp [migrateFrom3v1v3, migrateBody, h1, Except.toOption]
  · intro h1
    simp [migrateFrom3v1v3, h1, Except.toOption]

/-- C9 witness. -/
theorem c9_legacy_migration_witness :
    migrateFrom3v1v3
      { platform := "win32", targetExists := false, oldExists := true,
        moveFails := false } = true :=
  (c9_legacy_migration _).1 rfl rfl rfl rfl

theorem objInsert_append {α : Type} (acc : List (String × α)) (k : String) (v : α)
    (h : k ∉ acc.map Prod.fst) : objInsert acc k v = acc ++ [(k, v)] := by
  induction acc with
  | nil => rfl
  | cons hd t ih =>
    obtain ⟨k1, v1⟩ := hd
    simp only [List.map_cons, List.mem_cons, not_or] at h
    simp [objInsert, Ne.symm h.1, ih h.2]

theorem getKeyLengths_foldl :
    ∀ (es : List (String × String)) (acc : List (String × Option Nat)),
    (es.map Prod.fst).Nodup →
    (∀ x ∈ es, x.1 ∉ acc.map Prod.fst) →
    (es.map (fun kv => (kv.1, JsVal.vstr kv.2))).foldl
      (fun a kv => if truthy kv.2 then objInsert a kv.1 (jsLength kv.2) else a) acc
    = acc ++ (es.filter (fun kv => kv.2 ≠ "")).map
        (fun kv => (kv.1, some kv.2.length)) := by
  intro es
  induction es with
  | nil => intro acc _ _; simp
  | cons hd t ih =>
    intro acc hnd hacc
    obtain ⟨k, s⟩ := hd
    simp only [List.map_cons, List.nodup_cons] at hnd
    simp only [List.map_cons, List.foldl_cons]
    by_cases hs : s = ""
    · subst hs
      have htr : truthy (JsVal.vstr "") = false := rfl
      rw [htr]
      simp only [if_false, Bool.false_eq_true]
      rw [ih acc hnd.2 (fun x hx => hacc x (List.mem_cons_of_mem _ hx))]
      simp
    · have htr : truthy (JsVal.vstr s) = true := by simp [truthy, hs]
      rw [htr]
      simp only [if_true]
      have hk : k ∉ acc.map Prod.fst := hacc (k, s) (List.mem_cons_self _ _)
      rw [objInsert_append acc k _ hk]
      have hacc2 : ∀ x ∈ t, x.1 ∉ (acc ++ [(k, jsLength (JsVal.vstr s))]).map Prod.fst := by
        intro x hx
        simp only [List.map_append, List.mem_append, List.map_cons, List.map_nil,
          List.mem_singleton, not_or]
        refine ⟨hacc x (List.mem_cons_of_mem _ hx), ?_⟩
        intro hxk
        exact hnd.1 (hxk ▸ List.mem_map_of_mem Prod.fst hx)
      rw [ih _ hnd.2 hacc2]
      simp [hs, jsLength]

/-! ## Round-trip lemmas for the snapshot codec -/

theorem mkData_eq (s : String) : String.mk s.data = s := rfl

theorem hexVal_hexDigitChar (n : Nat) (h : n < 16) :
    hexVal (hexDigitChar n) = some n := by
  interval_cases n <;> decide

theorem skipWs_not_ws (c : Char) (r : List Char) (h : isJsonWs c = false) :
    skipWs (c :: r) = c :: r := by
  simp [skipWs, h]

theorem parseStringBody_escape (fuel : Nat) (c : Char) (r : List Char) :
    parseStringBody (fuel + 1) (escapeChar c ++ r) =
      (parseStringBody fuel r).map (fun p => (c :: p.1, p.2)) := by
  by_cases h1 : c = '"'
  · subst h1; rfl
  by_cases h2 : c = '\\'
  · subst h2; rfl
  by_cases h3 : c = '\x08'
  · subst h3; rfl
  by_cases h4 : c = '\x0c'
  · subst h4; rfl
  by_cases h5 : c = '\n'
  · subst h5; rfl
  by_cases h6 : c = '\r'
  · subst h6; rfl
  by_cases h7 : c = '\t'
  · subst h7; rfl
  by_cases h8 : c.toNat < 0x20
  · have hesc : escapeChar c =
        ['\\', 'u', '0', '0', hexDigitChar (c.toNat / 16), hexDigitChar (c.toNat % 16)] := by
      simp [escapeChar, h1, h2, h3, h4, h5, h6, h7, h8]
    have hdiv : c.toNat / 16 < 16 := by omega
    have hmod : c.toNat % 16 < 16 := Nat.mod_lt _ (by omega)
    have hval : c.toNat / 16 * 16 + c.toNat % 16 = c.toNat := by omega
    rw [hesc]
    simp only [List.cons_append, List.nil_append]
    have h0 : hexVal '0' = some 0 := rfl
    simp +decide [parseStringBody, h0, hexVal_hexDigitChar _ hdiv,
      hexVal_hexDigitChar _ hmod, hval, Char.ofNat_toNat]
  · have hesc : escapeChar c = [c] := by
      simp [escapeChar, h1, h2, h3, h4, h5, h6, h7, h8]
    rw [hesc]
    simp only [List.cons_append, List.nil_append]
    simp only [parseStringBody, h1, h2, h8, if_false]

theorem parseStringBody_flatMap (cs : List Char) : ∀ (fuel : Nat) (r : List Char),
    cs.length < fuel →
    parseStringBody fuel (cs.flatMap escapeChar ++ '"' :: r) = some (cs, r) := by
  induction cs with
  | nil =>
    intro fuel r h
    obtain ⟨g, rfl⟩ : ∃ g, fuel = g + 1 := ⟨fuel - 1, by omega⟩
    rfl
  | cons c t ih =>
    intro fuel r h
    obtain ⟨g, rfl⟩ : ∃ g, fuel = g + 1 := ⟨fuel - 1, by omega⟩
    rw [List.flatMap_cons, List.append_assoc, parseStringBody_escape g c _,
      ih g r (by simpa using Nat.lt_of_succ_lt_succ h)]
    rfl

theorem escapeChar_length_pos (c : Char) : 1 ≤ (escapeChar c).length := by
  unfold escapeChar
  split_ifs <;> simp

theorem length_le_flatMap (cs : List Char) :
    cs.length ≤ (cs.flatMap escapeChar).length := by
  induction cs with
  | nil => simp
  | cons c t ih =>
    rw [List.flatMap_cons, List.length_append]
    have := escapeChar_length_pos c
    simp only [List.length_cons]
    omega

theorem parseValue_encodeStr (fuel : Nat) (s : String) (r : List Char) :
    parseValue (fuel + 1) (encodeStrChars s ++ r) = some (.vstr s, r) := by
  have hshape : encodeStrChars s ++ r =
      '"' :: (s.data.flatMap escapeChar ++ '"' :: r) := by
    simp [encodeStrChars]
  rw [hshape]
  simp only [parseValue]
  rw [parseStringBody_flatMap s.data _ r (by
    have h1 := length_le_flatMap s.data
    simp only [List.length_append, List.length_cons]
    omega)]
  simp [mkData_eq]

theorem encodePairChars_shape (k v : String) (X : List Char) :
    encodePairChars (k, v) ++ X =
      '"' :: (k.data.flatMap escapeChar ++ '"' ::
        (':' :: (encodeStrChars v ++ X))) := by
  simp [encodePairChars, encodeStrChars]

theorem parseMembers_cons (f : Nat) (rest : List Char)
    (acc : List (String × JsVal)) :
    parseMembers (f + 1) ('"' :: rest) acc =
      (match parseStringBody (rest.length + 1) rest with
       | none => none
       | some (kcs, r1) =>
         match skipWs r1 with
         | ':' :: r2 =>
           match parseValue f (skipWs r2) with
           | none => none
           | some (v, r3) =>
             match skipWs r3 with
             | ',' :: r4 => parseMembers f (skipWs r4) (objInsert acc ⟨kcs⟩ v)
             | '}' :: r4 => some (objInsert acc ⟨kcs⟩ v, r4)
             | _ => none
         | _ => none) := rfl

theorem parseMembers_pair (fuel : Nat) (k v : String) (X : List Char)
    (acc : List (String × JsVal)) :
    parseMembers (fuel + 2) (encodePairChars (k, v) ++ X) acc =
      (match skipWs X with
       | ',' :: r4 => parseMembers (fuel + 1) (skipWs r4) (objInsert acc k (.vstr v))
       | '}' :: r4 => some (objInsert acc k (.vstr v), r4)
       | _ => none) := by
  rw [encodePairChars_shape, parseMembers_cons]
  rw [parseStringBody_flatMap k.data _ _ (by
    have h1 := length_le_flatMap k.data
    simp only [List.length_append, List.length_cons]
    omega)]
  have h1 : skipWs (':' :: (encodeStrChars v ++ X)) =
      ':' :: (encodeStrChars v ++ X) := skipWs_not_ws ':' _ rfl
  have h2 : skipWs (encodeStrChars v ++ X) = encodeStrChars v ++ X := by
    simp [encodeStrChars, skipWs, isJsonWs]
  simp only [h1, h2, parseValue_encodeStr fuel v X, mkData_eq]

theorem encodeMembersChars_skipWs (m : List (String × String)) (h : m ≠ []) :
    skipWs (encodeMembersChars m) = encodeMembersChars m := by
  cases m with
  | nil => contradiction
  | cons kv t =>
    obtain ⟨k, v⟩ := kv
    cases t with
    | nil =>
      simp [encodeMembersChars, encodePairChars, encodeStrChars, skipWs, isJsonWs]
    | cons kv2 t2 =>
      simp [encodeMembersChars, encodePairChars, encodeStrChars, skipWs, isJsonWs]

theorem length_le_encodeMembers (m : List (String × String)) :
    m.length ≤ (encodeMembersChars m).length := by
  induction m with
  | nil => simp [encodeMembersChars]
  | cons kv t ih =>
    obtain ⟨k, v⟩ := kv
    cases t with
    | nil => simp [encodeMembersChars, encodePairChars, encodeStrChars]
    | cons kv2 t2 =>
      simp only [encodeMembersChars, List.length_cons, List.length_append]
      simp only [List.length_cons] at ih
      omega

theorem parseMembers_encode : ∀ (m : List (String × String)) (fuel : Nat)
    (acc : List (String × JsVal)), m ≠ [] → m.length < fuel →
    parseMembers fuel (encodeMembersChars m) acc =
      some (m.foldl (fun a kv => objInsert a kv.1 (.vstr kv.2)) acc, []) := by
  intro m
  induction m with
  | nil => intro fuel acc h; contradiction
  | cons kv t ih =>
    intro fuel acc _ hlen
    obtain ⟨k, v⟩ := kv
    simp only [List.length_cons] at hlen
    cases t with
    | nil =>
      obtain ⟨g, rfl⟩ : ∃ g, fuel = g + 2 := ⟨fuel - 2, by omega⟩
      have hm : encodeMembersChars [(k, v)] = encodePairChars (k, v) ++ ['}'] := rfl
      rw [hm, parseMembers_pair]
      rfl
    | cons kv2 t2 =>
      obtain ⟨g, rfl⟩ : ∃ g, fuel = g + 2 := ⟨fuel - 2, by omega⟩
      have hm : encodeMembersChars ((k, v) :: kv2 :: t2) =
          encodePairChars (k, v) ++ ',' :: encodeMembersChars (kv2 :: t2) := rfl
      rw [hm, parseMembers_pair]
      have hws : skipWs (',' :: encodeMembersChars (kv2 :: t2)) =
          ',' :: encodeMembersChars (kv2 :: t2) := skipWs_not_ws ',' _ rfl
      simp only [hws]
      rw [encodeMembersChars_skipWs _ (by simp)]
      rw [ih (g + 1) _ (by simp) (by
        simp only [List.length_cons] at hlen ⊢
        omega)]
      rfl

theorem parseValue_obj (f : Nat) (rest : List Char) :
    parseValue (f + 1) ('{' :: rest) =
      (match skipWs rest with
       | '}' :: r => some (.vobj [], r)
       | cs1 => (parseMembers f cs1 []).map (fun p => (.vobj p.1, p.2))) := rfl

theorem encodeMembersChars_head (m : List (String × String)) (h : m ≠ []) :
    ∃ rest, encodeMembersChars m = '"' :: rest := by
  cases m with
  | nil => contradiction
  | cons kv t =>
    obtain ⟨k, v⟩ := kv
    cases t with
    | nil =>
      exact ⟨k.data.flatMap escapeChar ++ '"' :: ':' :: '"' ::
          (v.data.flatMap escapeChar ++ ['"', '}']),
        by simp [encodeMembersChars, encodePairChars, encodeStrChars]⟩
    | cons kv2 t2 =>
      exact ⟨k.data.flatMap escapeChar ++ '"' :: ':' :: '"' ::
          (v.data.flatMap escapeChar ++ '"' :: ',' :: encodeMembersChars (kv2 :: t2)),
        by simp [encodeMembersChars, encodePairChars, encodeStrChars]⟩

theorem parseValue_obj_members (f : Nat) (m : List (String × String)) (h : m ≠ []) :
    parseValue (f + 1) ('{' :: encodeMembersChars m) =
      (parseMembers f (encodeMembersChars m) []).map (fun p => (.vobj p.1, p.2)) := by
  obtain ⟨rest, hhead⟩ := encodeMembersChars_head m h
  rw [parseValue_obj, encodeMembersChars_skipWs _ h, hhead]
  rfl

theorem foldl_objInsert_map : ∀ (m : List (String × String))
    (acc : List (String × JsVal)),
    (∀ x ∈ m, x.1 ∉ acc.map Prod.fst) → (m.map Prod.fst).Nodup →
    m.foldl (fun a kv => objInsert a kv.1 (.vstr kv.2)) acc =
      acc ++ m.map (fun kv => (kv.1, JsVal.vstr kv.2)) := by
  intro m
  induction m with
  | nil => intro acc _ _; simp
  | cons kv t ih =>
    intro acc hacc hnd
    obtain ⟨k, v⟩ := kv
    simp only [List.map_cons, List.nodup_cons] at hnd
    simp only [List.foldl_cons]
    rw [objInsert_append acc k _ (hacc (k, v) (List.mem_cons_self _ _))]
    have hacc2 : ∀ x ∈ t, x.1 ∉ (acc ++ [(k, JsVal.vstr v)]).map Prod.fst := by
      intro x hx
      simp only [List.map_append, List.mem_append, List.map_cons, List.map_nil,
        List.mem_singleton, not_or]
      refine ⟨hacc x (List.mem_cons_of_mem _ hx), ?_⟩
      intro hxk
      exact hnd.1 (hxk ▸ List.mem_map_of_mem Prod.fst hx)
    rw [ih _ hacc2 hnd.2]
    simp

theorem attach_filterMap {α β : Type} (l : List α) (F : α → Option β) :
    l.attach.filterMap (fun x => F x.1) = l.filterMap F := by
  conv_rhs => rw [← List.attach_map_subtype_val l]
  rw [List.filterMap_map]
  rfl

theorem joinMembersChars_encode (m : List (String × String)) :
    joinMembersChars (m.map encodePairChars) = encodeMembersChars m := by
  induction m with
  | nil => rfl
  | cons kv t ih =>
    cases t with
    | nil => rfl
    | cons kv2 t2 =>
      simp only [List.map_cons] at ih ⊢
      show encodePairChars kv ++ ',' ::
          joinMembersChars (encodePairChars kv2 :: t2.map encodePairChars) =
        encodePairChars kv ++ ',' :: encodeMembersChars (kv2 :: t2)
      rw [ih]

/-- The general `JSON.stringify` model agrees with `encodeStrMap` on the
string-valued snapshots the store flushes: the round-trip encoder really is
the flush-path serialization restricted to the store's data shape. -/
theorem stringifyJson_strMap (m : List (String × String)) :
    stringifyJson (.vobj (m.map (fun kv => (kv.1, JsVal.vstr kv.2)))) =
      some (encodeStrMap m) := by
  simp only [stringifyJson]
  rw [attach_filterMap _ (fun p : String × JsVal =>
    Option.map (fun vs => encodeStrChars p.1 ++ ':' :: vs.data) (stringifyJson p.2))]
  rw [List.filterMap_map]
  have hfun : ∀ kv : String × String,
      ((fun p : String × JsVal =>
          (stringifyJson p.2).map (fun vs => encodeStrChars p.1 ++ ':' :: vs.data)) ∘
        (fun kv : String × String => (kv.1, JsVal.vstr kv.2))) kv =
      some (encodePairChars kv) := by
    intro kv
    simp [stringifyJson, encodePairChars]
  rw [funext hfun, List.filterMap_eq_map_iff_forall_eq_some.mpr
    (fun x _ => congrFun rfl x), joinMembersChars_encode]
  rfl

/-! ## Claim theorem: snapshot round trip -/

/-- C3.  Snapshot round trip: for every string→string map (association list
with distinct keys), parsing the `JSON.stringify` serialization used by the
flush path with the `JSON.parse` used at load yields exactly the same map
back (same keys in the same order, each bound to the same string value). -/
theorem c3_snapshot_roundtrip (m : List (String × String))
    (hnd : (m.map Prod.fst).Nodup) :
    decodeJson (encodeStrMap m) =
      some (.vobj (m.map (fun kv => (kv.1, JsVal.vstr kv.2)))) := by
  cases m with
  | nil => rfl
  | cons kv0 t0 =>
    have hdata : (encodeStrMap (kv0 :: t0)).data =
        '{' :: encodeMembersChars (kv0 :: t0) := rfl
    have hlen : (encodeStrMap (kv0 :: t0)).length =
        (encodeMembersChars (kv0 :: t0)).length + 1 := by
      have : (encodeStrMap (kv0 :: t0)).length =
          ('{' :: encodeMembersChars (kv0 :: t0)).length := rfl
      simpa using this
    have hlt : (kv0 :: t0).length < (encodeMembersChars (kv0 :: t0)).length + 1 :=
      Nat.lt_succ_of_le (length_le_encodeMembers _)
    unfold decodeJson
    rw [hdata, skipWs_not_ws '{' _ rfl, hlen,
      parseValue_obj_members _ _ (by simp),
      parseMembers_encode (kv0 :: t0) _ [] (by simp) hlt,
      foldl_objInsert_map (kv0 :: t0) [] (by simp) hnd]
    rfl

/-- C3 witness: a concrete map with characters that require escaping
round-trips exactly. -/
theorem c3_snapshot_roundtrip_witness :
    decodeJson (encodeStrMap [("a", "1"), ("b\n", "x\"y\\z\x01")]) =
      some (.vobj [("a", .vstr "1"), ("b\n", .vstr "x\"y\\z\x01")]) :=
  c3_snapshot_roundtrip [("a", "1"), ("b\n", "x\"y\\z\x01")] (by decide)

/-! ## Claim theorems: key-length stats -/

/-- C10.  `getKeyLengths` (and `getStats().keyLengths`) on a string-valued
store with distinct keys contains exactly the keys whose stored value is a
non-empty (truthy) string, each mapped to the value's length; a key whose
value is the empty string is dropped from the stats while still appearing
in the map and in `allKeys ()`. -/
theorem c10_stats_key_lengths : ∀ (es : List (String × String)) (n : Nat),
    (es.map Prod.fst).Nodup →
    getKeyLengths (es.map (fun kv => (kv.1, JsVal.vstr kv.2))) =
      (es.filter (fun kv => kv.2 ≠ "")).map (fun kv => (kv.1, some kv.2.length)) ∧
    allKeys (.vobj (es.map (fun kv => (kv.1, JsVal.vstr kv.2)))) =
      some (es.map Prod.fst) ∧
    (getStats n (es.map (fun kv => (kv.1, JsVal.vstr kv.2)))).keyLengths =
      getKeyLengths (es.map (fun kv => (kv.1, JsVal.vstr kv.2))) := by
  intro es n hnd
  refine ⟨?_, ?_, rfl⟩
  · exact getKeyLengths_foldl es [] hnd (by simp)
  · simp [allKeys, List.map_map, Function.comp]

/-- C10 witness: with store `{"a":"1","bb":"22","e":""}` the stats map is
`{a:1, bb:2}` while `keys()` still lists `e`. -/
theorem c10_stats_key_lengths_witness :
    getKeyLengths
      ([("a", "1"), ("bb", "22"), ("e", "")].map (fun kv => (kv.1, JsVal.vstr kv.2))) =
      [("a", some 1), ("bb", some 2)] ∧
    allKeys (.vobj ([("a", "1"), ("bb", "22"), ("e", "")].map
      (fun kv => (kv.1, JsVal.vstr kv.2)))) = some ["a", "bb", "e"] := by
  have h := c10_stats_key_lengths [("a", "1"), ("bb", "22"), ("e", "")] 0 (by decide)
  exact ⟨h.1, h.2.1⟩

/-! ## Claim theorems: getJSONItem -/

/-- C8.  `getParsed` decode-failure policy: when the stored value is a
non-empty string that fails to decode, `getJSONItem` returns the empty
object `{}` (the `catch` branch), not the caller-supplied default; when the
key is absent or its stored value is falsy it returns the default; and it
never surfaces a decode error (on an object-valued store the result is
always `some _`). -/
theorem c8_getparsed_decode_failure : ∀ es k df,
    ((∃ s, lookupVal es k = .vstr s ∧ s ≠ "" ∧ decodeJson s = none) →
      getJSONItem (.vobj es) k df = some (.vobj [])) ∧
    (truthy (lookupVal es k) = false → getJSONItem (.vobj es) k df = some df) ∧
    (getJSONItem (.vobj es) k df).isSome = true := by
  intro es k df
  refine ⟨?_, ?_, ?_⟩
  · rintro ⟨s, hlk, hs, hdec⟩
    have htrs : truthy (JsVal.vstr s) = true := by simp [truthy, hs]
    have hcoe : jsToString (.vstr s) = s := by simp [jsToString]
    simp [getJSONItem, getItem, jsIndex, hlk, htrs, hcoe, hdec]
  · intro htr
    have h0 : truthy JsVal.vundef = false := rfl
    simp [getJSONItem, getItem, jsIndex, htr, h0]
  · simp [getJSONItem, getItem, jsIndex]

/-- C8 witness. -/
theorem c8_getparsed_decode_failure_witness :
    getJSONItem (.vobj [("k", .vstr "\x7bbad")]) "k" (.vstr "d") = some (.vobj []) :=
  (c8_getparsed_decode_failure [("k", .vstr "\x7bbad")] "k" (.vstr "d")).1
    ⟨"\x7bbad", rfl, by decide, rfl⟩

/-! ## Claim theorems: corrupt-load recovery and the string-values invariant -/

/-- C4.  Corrupt-load recovery: construction is total for every disk
content (the read and parse errors are both caught), and when the file is
absent or its content is malformed the resulting store is the empty object,
whose key list is `[]`. -/
theorem c4_corrupt_load_recovery : ∀ content : Option String,
    (content = none ∨ decodeJson (content.getD "{}") = none) →
    loadFromDiskSync content = .vobj [] ∧
    allKeys (loadFromDiskSync content) = some [] := by
  intro content h
  rcases h with h | h
  · subst h
    exact ⟨rfl, rfl⟩
  · cases content with
    | none => exact ⟨rfl, rfl⟩
    | some s =>
      have hload : loadFromDiskSync (some s) = .vobj [] := by
        simp only [Option.getD] at h
        simp [loadFromDiskSync, readFile, parseOrThrow, h, Except.toOption]
      exact ⟨hload, by rw [hload]; rfl⟩

/-- C4 witness. -/
theorem c4_corrupt_load_recovery_witness :
    loadFromDiskSync (some "garbage") = .vobj [] ∧
    allKeys (loadFromDiskSync (some "garbage")) = some [] :=
  c4_corrupt_load_recovery (some "garbage") (Or.inr rfl)

/-- C5 counterexample.  A pre-existing disk file `{"a":5}` is well-formed
JSON, so `_loadFromDiskSync` installs it as the in-memory map unchanged:
the bucket then holds the non-string value `5` under key `"a"` directly
after construction, violating the all-values-are-strings invariant. -/
theorem c5_counterexample :
    loadFromDiskSync (some "\x7b\"a\":5\x7d") = .vobj [("a", .vnum "5")] ∧
    objValuesStrings (loadFromDiskSync (some "\x7b\"a\":5\x7d")) = false :=
  ⟨rfl, rfl⟩

/-- C5 (amended).  The mutation path does maintain the invariant: `set`
only ever stores coerced strings and `remove` only deletes, so from any
state whose values are all strings (in particular the empty store produced
by an absent or corrupt load) every sequence of set/remove operations
preserves it.  The unrestricted claim fails only through construction from
a disk snapshot that itself holds a non-string value. -/
theorem c5_values_strings :
    (∀ d ops, objValuesStrings d = true →
      objValuesStrings (applyOps d ops) = true) ∧
    objValuesStrings (loadFromDiskSync none) = true := by
  refine ⟨?_, rfl⟩
  intro d ops
  induction ops generalizing d with
  | nil => intro h; exact h
  | cons op t ih =>
    intro h
    cases d with
    | vobj es =>
      cases op with
      | set k v =>
        refine ih _ ?_
        simp only [setItem, jsAssign]
        exact objInsert_all _ es k _ h rfl
      | rem k =>
        refine ih _ ?_
        simp only [removeItem]
        exact eraseKey_all _ es k h
    | vundef => simp [objValuesStrings] at h
    | vnull => simp [objValuesStrings] at h
    | vbool b => simp [objValuesStrings] at h
    | vnum l => simp [objValuesStrings] at h
    | vstr s => simp [objValuesStrings] at h
    | varr es => simp [objValuesStrings] at h

/-! ## Simulation lemmas for the debounce layer -/

theorem sim_step_some (delay f : Nat) (s : SimState) (ev : SimEvent × Nat)
    (h : nextEvent s = some ev) :
    sim delay (f + 1) s = sim delay f (step delay s) := by
  simp [sim, h]

theorem sim_none (delay : Nat) (f : Nat) (s : SimState)
    (h : nextEvent s = none) : sim delay f s = s := by
  cases f with
  | zero => rfl
  | succ g => simp [sim, h]

/-- The state at the end of a burst: the last mutation has just run at time
`last`, leaving the timer armed for `last + delay` and no mutations left. -/
def burstEnd (s : SimState) (last delay : Nat) : SimState :=
  { s with now := last, muts := [], pending := some (last + delay) }

/-- Consuming a burst: while mutations keep arriving strictly within the
armed deadline, each one is executed first (it is the earliest event) and
re-arms the timer; no write happens during the burst. -/
theorem burst_consume (delay : Nat) : ∀ (ts : List Nat) (t0 : Nat) (s : SimState)
    (f : Nat),
    s.muts = ts → s.lock = false → s.pending = some (t0 + delay) → s.now = t0 →
    List.Chain' (fun a b => a ≤ b ∧ b < a + delay) (t0 :: ts) →
    sim delay (ts.length + f) s =
      sim delay f (burstEnd s ((t0 :: ts).getLast (List.cons_ne_nil _ _)) delay) := by
  intro ts
  induction ts with
  | nil =>
    intro t0 s f hm hl hp hn _
    obtain ⟨now, pending, lock, busyUntil, muts, durs, writes⟩ := s
    simp only at hm hp hn
    subst hm
    subst hp
    subst hn
    simp [List.getLast, burstEnd]
  | cons t1 rest ih =>
    intro t0 s f hm hl hp hn hc
    rw [List.chain'_cons] at hc
    have hc1 : t1 < t0 + delay := hc.1.2
    have hne : nextEvent s = some (.mutate, t1) := by
      simp [nextEvent, minCand, hl, hp, hm, hc1]
    have hstep : step delay s =
        { s with now := t1, muts := rest, pending := some (t1 + delay) } := by
      simp [step, hne, hm]
    have harith : (t1 :: rest).length + f = (rest.length + f) + 1 := by
      simp only [List.length_cons]
      omega
    rw [harith, sim_step_some delay _ s _ hne, hstep]
    rw [ih t1 { s with now := t1, muts := rest, pending := some (t1 + delay) } f
      (by simp) (by simp [hl]) (by simp) (by simp) hc.2]
    have hlast : (t1 :: rest).getLast (List.cons_ne_nil _ _) =
        (t0 :: t1 :: rest).getLast (List.cons_ne_nil _ _) :=
      (List.getLast_cons (List.cons_ne_nil _ _)).symm
    simp only [burstEnd]
    rw [hlast]

theorem minCand_none_left (b : Option (SimEvent × Nat)) : minCand none b = b := by
  cases b <;> rfl

theorem minCand_some_none (x : SimEvent × Nat) : minCand (some x) none = some x := rfl

theorem minCand_some_some (e1 e2 : SimEvent) (t1 t2 : Nat) :
    minCand (some (e1, t1)) (some (e2, t2)) =
      if t2 < t1 then some (e2, t2) else some (e1, t1) := rfl

/-- What a chosen next event implies: which component produced it, and that
its time is no later than every enabled candidate. -/
theorem nextEvent_spec (s : SimState) (ev : SimEvent) (t : Nat)
    (h : nextEvent s = some (ev, t)) :
    ((ev = .complete ∧ s.lock = true ∧ t = s.busyUntil) ∨
     (ev = .fire ∧ s.pending = some t) ∨
     (ev = .mutate ∧ s.muts.head? = some t)) ∧
    (s.lock = true → t ≤ s.busyUntil) ∧
    (∀ d, s.pending = some d → t ≤ d) ∧
    (∀ m, s.muts.head? = some m → t ≤ m) := by
  cases hl : s.lock <;> cases hp : s.pending <;> cases hm : s.muts <;>
    simp only [nextEvent, hl, hp, hm, minCand_none_left, minCand_some_none,
      minCand_some_some, if_true, if_false, Bool.false_eq_true] at h <;>
    (try split_ifs at h) <;>
    (try simp only [minCand_some_some] at h) <;>
    (try split_ifs at h) <;>
    (try simp only [Option.some.injEq, Prod.mk.injEq] at h) <;>
    first
      | (obtain ⟨rfl, rfl⟩ := h
         refine ⟨?_, ?_, ?_, ?_⟩ <;> simp_all <;> omega)
      | simp at h

theorem le_of_sorted_head (l : List Nat) (hs : l.Chain' (· ≤ ·)) (t : Nat)
    (hh : ∀ x, l.head? = some x → t ≤ x) : ∀ m ∈ l, t ≤ m := by
  cases l with
  | nil => simp
  | cons a r =>
    intro m hm
    have ha : t ≤ a := hh a rfl
    rcases List.mem_cons.1 hm with rfl | hmr
    · exact ha
    · have hpw := List.chain'_iff_pairwise.1 hs
      have := (List.pairwise_cons.1 hpw).1 m hmr
      omega

/-- Every step of the simulation preserves the sanity invariant; in
particular a new physical write can only start after every recorded write
has completed. -/
theorem step_Inv (delay : Nat) (s : SimState) (h : Inv s) : Inv (step delay s) := by
  obtain ⟨hW, hWb, hpend, hmut, hsort⟩ := h
  rcases hne : nextEvent s with _ | ⟨ev, t⟩
  · rw [step.eq_def, hne]
    exact ⟨hW, hWb, hpend, hmut, hsort⟩
  obtain ⟨hcase, hble, hple, hmle⟩ := nextEvent_spec s ev t hne
  have hmutallt : ∀ m ∈ s.muts, t ≤ m := le_of_sorted_head s.muts hsort _ hmle
  rw [step.eq_def, hne]
  cases ev with
  | complete =>
    rcases hcase with ⟨_, hlock, rfl⟩ | ⟨hbad, _⟩ | ⟨hbad, _⟩
    · dsimp only [Inv]
      refine ⟨hW, ?_, ?_, ?_, hsort⟩
      · intro w hw
        have hb := hWb w hw
        rw [hlock] at hb
        simp only [reduceIte] at hb
        simp only [Bool.false_eq_true, if_false]
        exact hb
      · exact fun d hd => hple d hd
      · exact hmutallt
    · exact absurd hbad (by simp)
    · exact absurd hbad (by simp)
  | fire =>
    rcases hcase with ⟨hbad, _⟩ | ⟨_, hpt⟩ | ⟨hbad, _⟩
    · exact absurd hbad (by simp)
    · have hnow : s.now ≤ t := hpend t hpt
      cases hlock : s.lock with
      | true =>
        dsimp only
        simp only [reduceIte]
        dsimp only [Inv]
        refine ⟨hW, ?_, ?_, ?_, hsort⟩
        · intro w hw
          have hb := hWb w hw
          rw [hlock] at hb
          simp only [reduceIte] at hb ⊢
          exact hb
        · intro d hd
          simp only [Option.some.injEq] at hd
          omega
        · exact hmutallt
      | false =>
        dsimp only
        simp only [Bool.false_eq_true, if_false]
        dsimp only [Inv]
        have hwend : ∀ w ∈ s.writes, w.2 ≤ t := by
          intro w hw
          have hb := hWb w hw
          rw [hlock] at hb
          simp only [Bool.false_eq_true, if_false] at hb
          omega
        refine ⟨?_, ?_, ?_, hmutallt, ?_⟩
        · rw [List.chain'_append]
          refine ⟨hW, List.chain'_singleton _, ?_⟩
          intro x hx y hy
          simp only [List.head?_cons, Option.mem_def, Option.some.injEq] at hy
          subst hy
          exact hwend x (List.mem_of_mem_getLast? hx)
        · intro w hw
          rcases List.mem_append.1 hw with hw1 | hw2
          · have h1 := hwend w hw1
            have h2 := (hWb w hw1).1
            simp only [reduceIte]
            exact ⟨h2, by omega⟩
          · simp only [List.mem_singleton] at hw2
            subst hw2
            simp only [reduceIte]
            exact ⟨by omega, by omega⟩
        · intro d hd
          simp at hd
        · exact hsort
    · exact absurd hbad (by simp)
  | mutate =>
    rcases hcase with ⟨hbad, _⟩ | ⟨hbad, _⟩ | ⟨_, hht⟩
    · exact absurd hbad (by simp)
    · exact absurd hbad (by simp)
    · have hnow : s.now ≤ t := by
        cases hm2 : s.muts with
        | nil =>
          rw [hm2] at hht
          simp at hht
        | cons a r =>
          rw [hm2] at hht
          simp only [List.head?_cons, Option.some.injEq] at hht
          have hmem : a ∈ s.muts := by
            rw [hm2]
            exact List.mem_cons_self a r
          exact hht ▸ hmut a hmem
      dsimp only [Inv]
      refine ⟨hW, ?_, ?_, ?_, ?_⟩
      · intro w hw
        have hb := hWb w hw
        cases hlock : s.lock with
        | true =>
          rw [hlock] at hb
          simp only [reduceIte] at hb ⊢
          exact hb
        | false =>
          rw [hlock] at hb
          simp only [Bool.false_eq_true, if_false] at hb ⊢
          exact ⟨hb.1, by omega⟩
      · intro d hd
        simp only [Option.some.injEq] at hd
        omega
      · intro m hm
        exact hmutallt m (List.mem_of_mem_tail hm)
      · exact List.Chain'.tail hsort

theorem sim_Inv (delay : Nat) : ∀ (fuel : Nat) (s : SimState),
    Inv s → Inv (sim delay fuel s) := by
  intro fuel
  induction fuel with
  | zero => intro s h; exact h
  | succ f ih =>
    intro s h
    rcases hne : nextEvent s with _ | ev
    · rw [sim_none _ _ _ hne]
      exact h
    · rw [sim_step_some _ _ _ _ hne]
      exact ih _ (step_Inv delay s h)

/-- When the in-flight write is due to complete no later than the armed
deadline, two simulation events suffice: the completion frees the lock and
the deferred flush then starts its physical write. -/
theorem unlock_then_write (delay : Nat) (s : SimState) (d : Nat)
    (hl : s.lock = true) (hp : s.pending = some d) (hm : s.muts = [])
    (hbd : s.busyUntil ≤ d) :
    (sim delay 2 s).writes = s.writes ++ [(d, d + s.durs.headD 0)] := by
  have hnd : ¬ d < s.busyUntil := not_lt.2 hbd
  have hne1 : nextEvent s = some (.complete, s.busyUntil) := by
    simp only [nextEvent, hl, hp, hm, reduceIte, minCand_some_some,
      minCand_some_none, hnd, if_false]
  have hstep1 : step delay s =
      { now := s.busyUntil, pending := s.pending, lock := false,
        busyUntil := s.busyUntil, muts := s.muts, durs := s.durs,
        writes := s.writes } := by
    rw [step.eq_def, hne1]
  have hne2 : nextEvent
      { now := s.busyUntil, pending := s.pending, lock := false,
        busyUntil := s.busyUntil, muts := s.muts, durs := s.durs,
        writes := s.writes } = some (.fire, d) := by
    simp only [nextEvent, hp, hm]
    simp only [Bool.false_eq_true, if_false, minCand_none_left, minCand_some_none]
  have hstep2 : step delay
      { now := s.busyUntil, pending := s.pending, lock := false,
        busyUntil := s.busyUntil, muts := s.muts, durs := s.durs,
        writes := s.writes } =
      { now := d, pending := none, lock := true,
        busyUntil := d + s.durs.headD 0, muts := s.muts, durs := s.durs.tail,
        writes := s.writes ++ [(d, d + s.durs.headD 0)] } := by
    rw [step.eq_def, hne2]
    dsimp only
    simp only [Bool.false_eq_true, if_false]
  rw [sim_step_some delay 1 s _ hne1, hstep1, sim_step_some delay 0 _ _ hne2,
    hstep2]
  rfl

/-- The retry-until-not-busy loop terminates: from any locked state with an
armed timer and no further mutations, the deferred flush eventually performs
exactly one more physical write (after finitely many requeues). -/
theorem deferred_flush (delay : Nat) (hdelay : 0 < delay) :
    ∀ (n : Nat) (s : SimState) (d : Nat), s.busyUntil - d ≤ n →
    s.lock = true → s.pending = some d → s.muts = [] →
    ∃ fuel, (sim delay fuel s).writes.length = s.writes.length + 1 := by
  intro n
  induction n with
  | zero =>
    intro s d hn hl hp hm
    refine ⟨2, ?_⟩
    rw [unlock_then_write delay s d hl hp hm (by omega)]
    simp
  | succ n ih =>
    intro s d hn hl hp hm
    by_cases hbd : s.busyUntil ≤ d
    · refine ⟨2, ?_⟩
      rw [unlock_then_write delay s d hl hp hm hbd]
      simp
    · push_neg at hbd
      have hne : nextEvent s = some (.fire, d) := by
        simp only [nextEvent, hl, hp, hm, reduceIte, minCand_some_some,
          minCand_some_none, hbd, if_pos]
      have hstep : step delay s =
          { now := d, pending := some (d + delay), lock := true,
            busyUntil := s.busyUntil, muts := s.muts, durs := s.durs,
            writes := s.writes } := by
        rw [step.eq_def, hne]
        dsimp only
        simp only [hl, reduceIte]
      obtain ⟨fuel, hw⟩ := ih
        { now := d, pending := some (d + delay), lock := true,
          busyUntil := s.busyUntil, muts := s.muts, durs := s.durs,
          writes := s.writes } (d + delay)
        (by dsimp only; omega) rfl rfl (by dsimp only; exact hm)
      refine ⟨fuel + 1, ?_⟩
      rw [sim_step_some delay fuel s _ hne, hstep]
      exact hw

/-! ## Claim theorem: no concurrent flush -/

/-- C2.  No concurrent flush: (1) when the timer fires while the write lock
is held, the step starts no write (the write log is unchanged), re-arms the
timer for `delay` later and leaves the lock held — the flush request is
requeued; (2) in every run from a sane state the recorded physical writes
are pairwise non-overlapping (each completes no later than the next one
starts); (3) from any state with a write in flight, an armed timer and no
further mutations, the deferred flush still eventually executes: some finite
number of events later exactly one more physical write has happened. -/
theorem c2_no_concurrent_flush (delay : Nat) (hdelay : 0 < delay) :
    (∀ (s : SimState) (t : Nat), nextEvent s = some (.fire, t) → s.lock = true →
      (step delay s).writes = s.writes ∧
      (step delay s).pending = some (t + delay) ∧
      (step delay s).lock = true) ∧
    (∀ (fuel : Nat) (s : SimState), Inv s →
      WritesDisjoint (sim delay fuel s).writes) ∧
    (∀ (s : SimState) (d : Nat), s.lock = true → s.pending = some d →
      s.muts = [] →
      ∃ fuel, (sim delay fuel s).writes.length = s.writes.length + 1) := by
  refine ⟨?_, ?_, ?_⟩
  · intro s t hne hl
    rw [step.eq_def, hne]
    dsimp only
    simp [hl]
  · intro fuel s hInv
    exact (sim_Inv delay fuel s hInv).1
  · intro s d hl hp hm
    exact deferred_flush delay hdelay (s.busyUntil - d) s d le_rfl hl hp hm

/-- C2 witness: a locked state with a write in flight until time 12 and the
timer armed for time 5; the fire at 5 requeues (no write started, timer
re-armed for 15, lock still held), and the deferred flush still eventually
runs. -/
theorem c2_no_concurrent_flush_witness :
    (0 : Nat) < 10 ∧
    ((step 10 c2DemoState).writes = [(2, 12)] ∧
     (step 10 c2DemoState).pending = some (5 + 10) ∧
     (step 10 c2DemoState).lock = true) ∧
    (∃ fuel, (sim 10 fuel c2DemoState).writes.length = 2) := by
  have h := c2_no_concurrent_flush 10 (by decide)
  refine ⟨by decide, h.1 c2DemoState 5 rfl rfl, ?_⟩
  have h3 := h.2.2 c2DemoState 5 rfl rfl rfl
  simpa using h3

/-! ## Claim theorem: debounce coalescing -/

/-- C1.  Debounce coalescing: starting idle, a burst of `N ≥ 1` mutations in
which each mutation arrives strictly less than the debounce delay after the
previous one produces exactly one physical write over the whole run, and
that write starts exactly at `delay` after the last mutation of the burst
(each mutation replaces the armed timer, so only the final deadline ever
fires). -/
theorem c1_debounce_coalescing (delay : Nat) (ts : List Nat) (durs : List Nat)
    (h1 : ts ≠ [])
    (hchain : List.Chain' (fun a b => a ≤ b ∧ b < a + delay) ts)
    (fuel : Nat) (hf : ts.length + 2 ≤ fuel) :
    (sim delay fuel (initState ts durs)).writes =
      [(ts.getLast h1 + delay, ts.getLast h1 + delay + durs.headD 0)] := by
  cases ts with
  | nil => exact absurd rfl h1
  | cons t1 rest =>
    obtain ⟨e, rfl⟩ : ∃ e, fuel = (rest.length + (e + 2)) + 1 :=
      ⟨fuel - rest.length - 3, by
        simp only [List.length_cons] at hf
        omega⟩
    have hne0 : nextEvent (initState (t1 :: rest) durs) = some (.mutate, t1) := by
      simp [initState, nextEvent, minCand]
    rw [sim_step_some _ _ _ _ hne0]
    have hstep0 : step delay (initState (t1 :: rest) durs) =
        { now := t1, pending := some (t1 + delay), lock := false, busyUntil := 0,
          muts := rest, durs := durs, writes := [] } := by
      rw [step.eq_def, hne0]
      rfl
    rw [hstep0]
    rw [burst_consume delay rest t1 _ (e + 2) rfl rfl rfl rfl hchain]
    have hs2 : burstEnd
        { now := t1, pending := some (t1 + delay), lock := false, busyUntil := 0,
          muts := rest, durs := durs, writes := [] }
        ((t1 :: rest).getLast (List.cons_ne_nil _ _)) delay =
        { now := (t1 :: rest).getLast (List.cons_ne_nil _ _),
          pending := some ((t1 :: rest).getLast (List.cons_ne_nil _ _) + delay),
          lock := false, busyUntil := 0, muts := [], durs := durs,
          writes := [] } := rfl
    rw [hs2]
    have hne2 : nextEvent
        { now := (t1 :: rest).getLast (List.cons_ne_nil _ _),
          pending := some ((t1 :: rest).getLast (List.cons_ne_nil _ _) + delay),
          lock := false, busyUntil := 0, muts := [], durs := durs,
          writes := [] } =
        some (.fire, (t1 :: rest).getLast (List.cons_ne_nil _ _) + delay) := by
      simp [nextEvent, minCand]
    rw [sim_step_some _ _ _ _ hne2]
    have hstep2 : step delay
        { now := (t1 :: rest).getLast (List.cons_ne_nil _ _),
          pending := some ((t1 :: rest).getLast (List.cons_ne_nil _ _) + delay),
          lock := false, busyUntil := 0, muts := [], durs := durs,
          writes := [] } =
        { now := (t1 :: rest).getLast (List.cons_ne_nil _ _) + delay,
          pending := none, lock := true,
          busyUntil := (t1 :: rest).getLast (List.cons_ne_nil _ _) + delay + durs.headD 0,
          muts := [], durs := durs.tail,
          writes := [((t1 :: rest).getLast (List.cons_ne_nil _ _) + delay,
            (t1 :: rest).getLast (List.cons_ne_nil _ _) + delay + durs.headD 0)] } := by
      simp [step, hne2]
    rw [hstep2]
    have hne3 : nextEvent
        { now := (t1 :: rest).getLast (List.cons_ne_nil _ _) + delay,
          pending := none, lock := true,
          busyUntil := (t1 :: rest).getLast (List.cons_ne_nil _ _) + delay + durs.headD 0,
          muts := [], durs := durs.tail,
          writes := [((t1 :: rest).getLast (List.cons_ne_nil _ _) + delay,
            (t1 :: rest).getLast (List.cons_ne_nil _ _) + delay + durs.headD 0)] } =
        some (.complete,
          (t1 :: rest).getLast (List.cons_ne_nil _ _) + delay + durs.headD 0) := by
      simp [nextEvent, minCand]
    rw [sim_step_some _ _ _ _ hne3]
    have hstep3 : step delay
        { now := (t1 :: rest).getLast (List.cons_ne_nil _ _) + delay,
          pending := none, lock := true,
          busyUntil := (t1 :: rest).getLast (List.cons_ne_nil _ _) + delay + durs.headD 0,
          muts := [], durs := durs.tail,
          writes := [((t1 :: rest).getLast (List.cons_ne_nil _ _) + delay,
            (t1 :: rest).getLast (List.cons_ne_nil _ _) + delay + durs.headD 0)] } =
        { now := (t1 :: rest).getLast (List.cons_ne_nil _ _) + delay + durs.headD 0,
          pending := none, lock := false,
          busyUntil := (t1 :: rest).getLast (List.cons_ne_nil _ _) + delay + durs.headD 0,
          muts := [], durs := durs.tail,
          writes := [((t1 :: rest).getLast (List.cons_ne_nil _ _) + delay,
            (t1 :: rest).getLast (List.cons_ne_nil _ _) + delay + durs.headD 0)] } := by
      rw [step.eq_def, hne3]
    rw [hstep3]
    have hne4 : nextEvent
        { now := (t1 :: rest).getLast (List.cons_ne_nil _ _) + delay + durs.headD 0,
          pending := none, lock := false,
          busyUntil := (t1 :: rest).getLast (List.cons_ne_nil _ _) + delay + durs.headD 0,
          muts := [], durs := durs.tail,
          writes := [((t1 :: rest).getLast (List.cons_ne_nil _ _) + delay,
            (t1 :: rest).getLast (List.cons_ne_nil _ _) + delay + durs.headD 0)] } =
        none := by
      simp [nextEvent, minCand]
    rw [sim_none _ _ _ hne4]

/-- C1 witness: mutations at 0, 5 and 9 with delay 10 produce exactly the
single write starting at 19. -/
theorem c1_debounce_coalescing_witness :
    (sim 10 5 (initState [0, 5, 9] [4])).writes = [(19, 23)] := by
  have h := c1_debounce_coalescing 10 [0, 5, 9] [4] (by decide)
    (by norm_num [List.chain'_cons]) 5 (by decide)
  simpa using h

/-- C5 witness. -/
theorem c5_values_strings_witness :
    objValuesStrings
      (applyOps (.vobj [("x", .vstr "y")]) [.set "a" (.vnum "3"), .rem "x"]) = true :=
  c5_values_strings.1 (.vobj [("x", .vstr "y")]) [.set "a" (.vnum "3"), .rem "x"] rfl

end StorageBucket

